import Mathlib

/-!
Verification of the diagram-rendering core of `automata` (`src/automata/fa/fa.py`).

The Python source is shallowly embedded below:

* `StateData` models the state identifiers the library accepts (strings,
  sets/frozensets, tuples, and a textual fallback for any other value);
* `get_state_name` / `get_edge_name` mirror the label formatters
  (fa.py lines 30-57);
* `buildNodes` mirrors the node-construction part of `FA.show_diagram`
  (fa.py lines 125-146), including pygraphviz's update-on-readd semantics;
* `pathEdges` / `pathEdgesE` mirror the path-highlighting loop
  (fa.py lines 148-176), with `pathEdgesE` making Python's fallible
  division explicit;
* `edgeLabels` / `aggEdges` mirror the edge aggregation (fa.py lines 178-195);
* `exportActions` mirrors the layout/export tail (fa.py lines 197-222) as the
  list of external actions the code performs;
* `add_new_state` mirrors `FA._add_new_state` (fa.py lines 258-266).
-/

set_option maxHeartbeats 1000000

namespace FA

/-- State identifiers as consumed by the renderer: Python strings, sets or
frozensets (the `set` constructor carries the members in the set's iteration
order), tuples, and a fallback for any other value carrying its `str`
rendering. -/
inductive StateData where
  | str : String → StateData
  | set : List StateData → StateData
  | tup : List StateData → StateData
  | other : String → StateData

mutual

/-- Structural decidable equality on state identifiers. -/
def StateData.decEq : (a b : StateData) → Decidable (a = b)
  | .str a, .str b =>
    match String.decEq a b with
    | isTrue h => isTrue (by rw [h])
    | isFalse h => isFalse (fun hh => h (by injection hh))
  | .str _, .set _ => isFalse (fun h => StateData.noConfusion h)
  | .str _, .tup _ => isFalse (fun h => StateData.noConfusion h)
  | .str _, .other _ => isFalse (fun h => StateData.noConfusion h)
  | .set _, .str _ => isFalse (fun h => StateData.noConfusion h)
  | .set la, .set lb =>
    match StateData.decEqList la lb with
    | isTrue h => isTrue (by rw [h])
    | isFalse h => isFalse (fun hh => h (by injection hh))
  | .set _, .tup _ => isFalse (fun h => StateData.noConfusion h)
  | .set _, .other _ => isFalse (fun h => StateData.noConfusion h)
  | .tup _, .str _ => isFalse (fun h => StateData.noConfusion h)
  | .tup _, .set _ => isFalse (fun h => StateData.noConfusion h)
  | .tup la, .tup lb =>
    match StateData.decEqList la lb with
    | isTrue h => isTrue (by rw [h])
    | isFalse h => isFalse (fun hh => h (by injection hh))
  | .tup _, .other _ => isFalse (fun h => StateData.noConfusion h)
  | .other _, .str _ => isFalse (fun h => StateData.noConfusion h)
  | .other _, .set _ => isFalse (fun h => StateData.noConfusion h)
  | .other _, .tup _ => isFalse (fun h => StateData.noConfusion h)
  | .other a, .other b =>
    match String.decEq a b with
    | isTrue h => isTrue (by rw [h])
    | isFalse h => isFalse (fun hh => h (by injection hh))

/-- Structural decidable equality on lists of state identifiers. -/
def StateData.decEqList : (a b : List StateData) → Decidable (a = b)
  | [], [] => isTrue rfl
  | [], _ :: _ => isFalse (fun h => List.noConfusion h)
  | _ :: _, [] => isFalse (fun h => List.noConfusion h)
  | x :: xs, y :: ys =>
    match StateData.decEq x y, StateData.decEqList xs ys with
    | isTrue h1, isTrue h2 => isTrue (by rw [h1, h2])
    | isFalse h1, _ => isFalse (fun hh => h1 (by injection hh))
    | _, isFalse h2 => isFalse (fun hh => h2 (by injection hh))

end

instance : DecidableEq StateData := StateData.decEq

mutual

/-- Mirrors `FA.get_state_name` (fa.py lines 30-53): the empty string renders
as the lambda glyph, sets render brace-wrapped with the empty set as the
empty-set glyph, tuples render parenthesis-wrapped, anything else via `str`. -/
def get_state_name : StateData → String
  | StateData.str s => if s = "" then "λ" else s
  | StateData.set l => if l.isEmpty then "∅" else "\x7b" ++ joinNames l ++ "\x7d"
  | StateData.tup l => "(" ++ joinNames l ++ ")"
  | StateData.other r => r

/-- Comma-space join of the recursively formatted members, mirroring
the join in `FA.get_state_name` (fa.py line 43). -/
def joinNames : List StateData → String
  | [] => ""
  | [x] => get_state_name x
  | x :: y :: rest => get_state_name x ++ ", " ++ joinNames (y :: rest)

end

/-- Mirrors `FA.get_edge_name` (fa.py lines 55-57): the empty symbol renders
as the epsilon glyph. -/
def get_edge_name (symbol : String) : String :=
  if symbol = "" then "ε" else symbol

/-- C9: the label formatters are pure and deterministic: equal state values
yield identical output; the empty string renders as the lambda glyph; the
empty set renders as the empty-set glyph, which is not the lambda glyph; a
transition with the empty symbol renders as the epsilon glyph, which is not
the empty label. -/
theorem c9_formatters_pure (x y : StateData) (h : x = y) :
    get_state_name x = get_state_name y ∧
    get_state_name (StateData.str "") = "λ" ∧
    get_state_name (StateData.set []) = "∅" ∧
    "∅" ≠ "λ" ∧
    get_edge_name "" = "ε" ∧
    "ε" ≠ "" := by
  subst h
  exact ⟨rfl, rfl, rfl, by decide, rfl, by decide⟩

/-- Witness for C9 at a concrete nested state value. -/
theorem c9_formatters_pure_witness :
    get_state_name (StateData.set [StateData.str "", StateData.tup [StateData.str "a"]]) =
      get_state_name (StateData.set [StateData.str "", StateData.tup [StateData.str "a"]]) ∧
    get_state_name (StateData.set []) = "∅" := by
  have h := c9_formatters_pure
    (StateData.set [StateData.str "", StateData.tup [StateData.str "a"]])
    (StateData.set [StateData.str "", StateData.tup [StateData.str "a"]]) rfl
  exact ⟨h.1, h.2.2.1⟩

/-- Loop of `FA._add_new_state` (fa.py lines 261-263): increment the candidate
while it is already a member. Fuel-indexed; `add_new_state` supplies enough
fuel for the loop to reach its exit condition, so the embedding agrees with
the unbounded Python `while` loop. -/
def add_new_state_loop : ℕ → Finset ℤ → ℤ → ℤ
  | 0, _, n => n
  | fuel + 1, s, n => if n ∈ s then add_new_state_loop fuel s (n + 1) else n

/-- Mirrors `FA._add_new_state` (fa.py lines 258-266). The Python code mutates
`state_set` in place and returns the new state; the embedding returns the new
state together with the updated set. The integer members of the set are
modelled (membership tests of an integer against non-integer members are
always false in Python, so only integer members affect the loop). -/
def add_new_state (stateSet : Finset ℤ) (start : ℤ) : ℤ × Finset ℤ :=
  let newState := add_new_state_loop (stateSet.card + 1) stateSet start
  (newState, insert newState stateSet)

theorem add_new_state_loop_spec (fuel : ℕ) (s : Finset ℤ) :
    ∀ n : ℤ, (s.filter (fun m => n ≤ m)).card < fuel →
      n ≤ add_new_state_loop fuel s n ∧
      add_new_state_loop fuel s n ∉ s ∧
      ∀ m : ℤ, n ≤ m → m < add_new_state_loop fuel s n → m ∈ s := by
  induction fuel with
  | zero => intro n hfuel; exact absurd hfuel (Nat.not_lt_zero _)
  | succ fuel ih =>
    intro n hfuel
    by_cases hn : n ∈ s
    · have hnotmem : n ∉ s.filter (fun m => n + 1 ≤ m) := by
        simp [Finset.mem_filter]
      have hsub : insert n (s.filter (fun m => n + 1 ≤ m)) ⊆
          s.filter (fun m => n ≤ m) := by
        intro x hx
        rcases Finset.mem_insert.mp hx with rfl | hx
        · exact Finset.mem_filter.mpr ⟨hn, le_refl x⟩
        · rcases Finset.mem_filter.mp hx with ⟨hxs, hxle⟩
          exact Finset.mem_filter.mpr ⟨hxs, by omega⟩
      have hcard : (s.filter (fun m => n + 1 ≤ m)).card + 1 ≤
          (s.filter (fun m => n ≤ m)).card := by
        have h := Finset.card_le_card hsub
        rwa [Finset.card_insert_of_not_mem hnotmem] at h
      obtain ⟨h1, h2, h3⟩ := ih (n + 1) (by omega)
      have hstep : add_new_state_loop (fuel + 1) s n =
          add_new_state_loop fuel s (n + 1) := by
        simp [add_new_state_loop, hn]
      refine ⟨?_, ?_, ?_⟩
      · rw [hstep]; omega
      · rw [hstep]; exact h2
      · intro m hm hmr
        rw [hstep] at hmr
        by_cases hmn : m = n
        · subst hmn; exact hn
        · exact h3 m (by omega) hmr
    · have hstep : add_new_state_loop (fuel + 1) s n = n := by
        simp [add_new_state_loop, hn]
      rw [hstep]
      exact ⟨le_refl n, hn, fun m hm hmr => absurd hm (by omega)⟩

/-- C10: `_add_new_state` returns the smallest integer greater than or equal
to `start` that is not already in the set, and the updated set holds exactly
the old members plus that returned integer. -/
theorem c10_add_new_state (stateSet : Finset ℤ) (start : ℤ) :
    start ≤ (add_new_state stateSet start).1 ∧
    (add_new_state stateSet start).1 ∉ stateSet ∧
    (∀ m : ℤ, start ≤ m → m ∉ stateSet → (add_new_state stateSet start).1 ≤ m) ∧
    (∀ x : ℤ, x ∈ (add_new_state stateSet start).2 ↔
      x = (add_new_state stateSet start).1 ∨ x ∈ stateSet) := by
  have hfuel : (stateSet.filter (fun m => start ≤ m)).card < stateSet.card + 1 :=
    Nat.lt_succ_of_le (Finset.card_filter_le _ _)
  obtain ⟨h1, h2, h3⟩ := add_new_state_loop_spec (stateSet.card + 1) stateSet start hfuel
  have hdef : (add_new_state stateSet start).1 =
      add_new_state_loop (stateSet.card + 1) stateSet start := rfl
  rw [hdef]
  refine ⟨h1, h2, ?_, ?_⟩
  · intro m hm hmnot
    by_contra hlt
    exact hmnot (h3 m hm (by omega))
  · intro x
    exact Finset.mem_insert

/-- Witness for C10 on a concrete gap-containing set: the first free integer
at or above 0 in the set with members 0, 1, 3. -/
theorem c10_add_new_state_witness :
    0 ≤ (add_new_state ({0, 1, 3} : Finset ℤ) 0).1 ∧
    (add_new_state ({0, 1, 3} : Finset ℤ) 0).1 ∉ ({0, 1, 3} : Finset ℤ) := by
  have h := c10_add_new_state ({0, 1, 3} : Finset ℤ) 0
  exact ⟨h.1, h.2.1⟩

/-- Color in the srgb coordinates coloraide uses for `Color("#ff0")` and
friends; the channels are modelled exactly as rationals. -/
structure Color where
  r : ℚ
  g : ℚ
  b : ℚ
deriving DecidableEq, Repr

/-- Mirrors `coloraide.Color.interpolate([start_color, end_color],
space="srgb")` (fa.py lines 156-158): channelwise linear interpolation
between the two stops, sampled at position `t`. -/
def interpolate (c₁ c₂ : Color) (t : ℚ) : Color :=
  ⟨c₁.r + (c₂.r - c₁.r) * t, c₁.g + (c₂.g - c₁.g) * t, c₁.b + (c₂.b - c₁.b) * t⟩

/-- Mirrors `coloraide.Color("#ff0")` (fa.py line 152), the fixed start color. -/
def start_color : Color := ⟨1, 1, 0⟩

/-- Mirrors fa.py lines 153-155: green end color (`#0f0`) when the input is
accepted, red (`#f00`) otherwise. -/
def end_color (accepted : Bool) : Color :=
  if accepted then ⟨0, 1, 0⟩ else ⟨1, 0, 0⟩

/-- Transition triple (from_state, to_state, symbol) as yielded by
`iter_transitions` and `_get_input_path`. -/
abbrev Transition := StateData × StateData × String

/-- Edge of the rendered graph; the fields mirror the attributes set by the
`graph.add_edge` calls in `show_diagram` (the tooltip of the entry edge is
omitted — no claim concerns it). `label`, `color`, `penwidth` and `fontsize`
are `none` for edges whose `add_edge` call does not set them. -/
structure DiagEdge where
  src : String
  dst : String
  label : Option String
  color : Option Color
  penwidth : Option String
  arrowsize : String
  fontsize : Option String
deriving DecidableEq, Repr

/-- Highlighted path edge added by fa.py lines 168-176 for step `i`, with `q`
the position passed to the color interpolation. -/
def pathEdgeAt (accepted : Bool) (q : ℚ) (i : ℕ) (t : Transition)
    (fontSizeStr arrowSizeStr : String) : DiagEdge :=
  { src := get_state_name t.1,
    dst := get_state_name t.2.1,
    label := some ("<" ++ get_edge_name t.2.2 ++ " <b>[<i>#" ++ toString i ++ "</i>]</b>>"),
    color := some (interpolate start_color (end_color accepted) q),
    penwidth := some "2.5",
    arrowsize := arrowSizeStr,
    fontsize := some fontSizeStr }

/-- Highlighted path edge for step `i` of a path of length `L`, colored with
the sample at position `i / L` (fa.py line 164). -/
def pathEdge (accepted : Bool) (L i : ℕ) (t : Transition) (fS aS : String) : DiagEdge :=
  pathEdgeAt accepted ((i : ℚ) / (L : ℚ)) i t fS aS

/-- Loop of fa.py lines 161-176 with the 1-based `enumerate` index `i`. -/
def pathEdgesFrom (accepted : Bool) (L : ℕ) (fS aS : String) :
    ℕ → List Transition → List DiagEdge
  | _, [] => []
  | i, t :: rest => pathEdge accepted L i t fS aS :: pathEdgesFrom accepted L fS aS (i + 1) rest

/-- Highlighted edges for a traced path (fa.py lines 149-176): one edge per
path step, enumerated from 1. -/
def pathEdges (path : List Transition) (accepted : Bool) (fS aS : String) : List DiagEdge :=
  pathEdgesFrom accepted path.length fS aS 1 path

/-- Python division as used on fa.py line 164: raises `ZeroDivisionError` on a
zero divisor. -/
def pydiv (a b : ℚ) : Except String ℚ :=
  if b = 0 then Except.error "ZeroDivisionError" else Except.ok (a / b)

/-- Fallible version of `pathEdgesFrom`, making explicit that every loop
iteration evaluates the division `transition_index / len(input_path)`
(fa.py line 164). -/
def pathEdgesFromE (accepted : Bool) (L : ℕ) (fS aS : String) :
    ℕ → List Transition → Except String (List DiagEdge)
  | _, [] => Except.ok []
  | i, t :: rest => do
    let q ← pydiv (i : ℚ) (L : ℚ)
    let es ← pathEdgesFromE accepted L fS aS (i + 1) rest
    Except.ok (pathEdgeAt accepted q i t fS aS :: es)

/-- Fallible version of `pathEdges`. -/
def pathEdgesE (path : List Transition) (accepted : Bool) (fS aS : String) :
    Except String (List DiagEdge) :=
  pathEdgesFromE accepted path.length fS aS 1 path

theorem interpolate_zero (c₁ c₂ : Color) : interpolate c₁ c₂ 0 = c₁ := by
  simp [interpolate]

theorem interpolate_one (c₁ c₂ : Color) : interpolate c₁ c₂ 1 = c₂ := by
  simp [interpolate]

theorem pathEdgesFrom_length (accepted : Bool) (L : ℕ) (fS aS : String) :
    ∀ (l : List Transition) (i : ℕ),
      (pathEdgesFrom accepted L fS aS i l).length = l.length := by
  intro l
  induction l with
  | nil => intro i; rfl
  | cons t rest ih => intro i; simp [pathEdgesFrom, ih (i + 1)]

theorem pathEdgesFrom_getElem? (accepted : Bool) (L : ℕ) (fS aS : String) :
    ∀ (l : List Transition) (i j : ℕ),
      (pathEdgesFrom accepted L fS aS i l)[j]? =
        (l[j]?).map (fun t => pathEdge accepted L (i + j) t fS aS) := by
  intro l
  induction l with
  | nil => intro i j; simp [pathEdgesFrom]
  | cons t rest ih =>
    intro i j
    cases j with
    | zero => simp [pathEdgesFrom]
    | succ j =>
      have harith : i + 1 + j = i + (j + 1) := by omega
      simp only [pathEdgesFrom, List.getElem?_cons_succ]
      rw [ih (i + 1) j, harith]

/-- C1: for a traced path of length `L ≥ 1`, the `j`-th transition (0-based
`j`, i.e. 1-based step `j+1`) is colored with the interpolation sample at
position `(j+1)/L`; the sample at position `0` is the fixed start color; the
color of the last transition is exactly the end color selected by the
acceptance outcome; and the two possible end colors differ. -/
theorem c1_path_colors (path : List Transition) (accepted : Bool) (fS aS : String)
    (hL : 1 ≤ path.length) :
    (∀ (j : ℕ) (e : DiagEdge), (pathEdges path accepted fS aS)[j]? = some e →
      e.color = some (interpolate start_color (end_color accepted)
        (((j : ℚ) + 1) / (path.length : ℚ)))) ∧
    interpolate start_color (end_color accepted) 0 = start_color ∧
    (∀ e, (pathEdges path accepted fS aS).getLast? = some e →
      e.color = some (end_color accepted)) ∧
    end_color true ≠ end_color false := by
  have hget : ∀ (j : ℕ) (e : DiagEdge), (pathEdges path accepted fS aS)[j]? = some e →
      e.color = some (interpolate start_color (end_color accepted)
        (((j : ℚ) + 1) / (path.length : ℚ))) := by
    intro j e h
    rw [pathEdges, pathEdgesFrom_getElem?] at h
    rcases Option.map_eq_some'.mp h with ⟨t, _, rfl⟩
    have hcast : ((1 + j : ℕ) : ℚ) = (j : ℚ) + 1 := by push_cast; ring
    simp [pathEdge, pathEdgeAt, hcast]
  refine ⟨hget, interpolate_zero _ _, ?_, by decide⟩
  intro e h
  have hlen : (pathEdges path accepted fS aS).length = path.length := by
    rw [pathEdges, pathEdgesFrom_length]
  rw [List.getLast?_eq_getElem?] at h
  have hcolor := hget (path.length - 1) e (by rw [hlen] at h; exact h)
  have hfrac : (((path.length - 1 : ℕ) : ℚ) + 1) / (path.length : ℚ) = 1 := by
    have h0 : ((path.length : ℕ) : ℚ) ≠ 0 := Nat.cast_ne_zero.mpr (by omega)
    rw [Nat.cast_sub hL, Nat.cast_one, sub_add_cancel, div_self h0]
  rw [hfrac, interpolate_one] at hcolor
  exact hcolor

/-- Witness for C1 on the one-step accepted path `q0 --a--> q1`: its last
(and only) highlighted edge carries the accepting end color. -/
theorem c1_path_colors_witness :
    (pathEdge true 1 1 (StateData.str "q0", StateData.str "q1", "a") "14.0" "0.85").color
      = some (end_color true) := by
  have h := c1_path_colors [(StateData.str "q0", StateData.str "q1", "a")]
    true "14.0" "0.85" (by decide)
  exact h.2.2.1 _ rfl

/-- C8: rendering an empty trace produces no colored edge and completes
without evaluating the division by the path length: the fallible embedding
returns `ok []` even though its per-iteration division fails on a zero
divisor. -/
theorem c8_empty_trace (accepted : Bool) (fS aS : String) :
    pathEdgesE [] accepted fS aS = Except.ok [] ∧
    (∀ a : ℚ, pydiv a 0 = Except.error "ZeroDivisionError") := by
  constructor
  · rfl
  · intro a; simp [pydiv]

/-- Witness for C8 at concrete arguments. -/
theorem c8_empty_trace_witness :
    pathEdgesE [] true "14.0" "0.85" = Except.ok [] :=
  (c8_empty_trace true "14.0" "0.85").1

/-- Node of the rendered graph; the fields mirror the attributes set by the
`graph.add_node` calls in `show_diagram` (the label and tooltip of the entry
node are omitted — no claim concerns them). `shape`/`fontsize` are `none` for
a node created implicitly by `add_edge` with no attributes. -/
structure Node where
  name : String
  shape : Option String
  fontsize : Option String
deriving DecidableEq, Repr

/-- pygraphviz `add_node` semantics: adding a node that already exists updates
its attributes in place; otherwise the node is appended. -/
def addNode (g : List Node) (n : Node) : List Node :=
  if g.any (fun m => m.name == n.name) then
    g.map (fun m => if m.name == n.name then n else m)
  else g ++ [n]

/-- pygraphviz `add_edge` semantics for endpoints: a missing endpoint node is
created with default attributes. -/
def ensureNode (g : List Node) (x : String) : List Node :=
  if g.any (fun m => m.name == x) then g else g ++ [⟨x, none, none⟩]

/-- Node written for a state by fa.py lines 143-146: doublecircle shape for
accepting states, circle otherwise. -/
def stateNode (finals : List StateData) (fS : String) (s : StateData) : Node :=
  ⟨get_state_name s, some (if finals.contains s then "doublecircle" else "circle"), some fS⟩

/-- Loop over `self.states` of fa.py lines 143-146. -/
def addStateNodes (finals : List StateData) (fS : String) :
    List Node → List StateData → List Node
  | g, [] => g
  | g, s :: rest => addStateNodes finals fS (addNode g (stateNode finals fS s)) rest

/-- Node construction of `show_diagram` (fa.py lines 125-146): the entry
("null") node with its fresh uuid name, the endpoint of the entry edge added
implicitly by `add_edge`, then one `add_node` per state. `states` is
`self.states` in its iteration order, `finals` is `self.final_states`. -/
def buildNodes (nullName : String) (initialState : StateData)
    (states finals : List StateData) (fS : String) : List Node :=
  let g0 : List Node := [⟨nullName, some "point", some fS⟩]
  let g1 := ensureNode (ensureNode g0 nullName) (get_state_name initialState)
  addStateNodes finals fS g1 states

theorem any_name_eq (g : List Node) (x : String) :
    g.any (fun m => m.name == x) = true ↔ x ∈ g.map Node.name := by
  rw [List.any_eq_true]
  constructor
  · rintro ⟨m, hm, hbeq⟩
    exact List.mem_map.mpr ⟨m, hm, by simpa using hbeq⟩
  · intro h
    rcases List.mem_map.mp h with ⟨m, hm, rfl⟩
    exact ⟨m, hm, by simp⟩

theorem names_addNode (g : List Node) (n : Node) :
    (addNode g n).map Node.name =
      if n.name ∈ g.map Node.name then g.map Node.name
      else g.map Node.name ++ [n.name] := by
  rw [addNode]
  by_cases h : n.name ∈ g.map Node.name
  · rw [if_pos ((any_name_eq g n.name).mpr h), if_pos h, List.map_map]
    apply List.map_congr_left
    intro m _
    by_cases hm : m.name = n.name
    · simp [hm]
    · simp [hm]
  · rw [if_neg (fun hc => h ((any_name_eq g n.name).mp hc)), if_neg h]
    simp

theorem names_ensureNode (g : List Node) (x : String) :
    (ensureNode g x).map Node.name =
      if x ∈ g.map Node.name then g.map Node.name
      else g.map Node.name ++ [x] := by
  rw [ensureNode]
  by_cases h : x ∈ g.map Node.name
  · rw [if_pos ((any_name_eq g x).mpr h), if_pos h]
  · rw [if_neg (fun hc => h ((any_name_eq g x).mp hc)), if_neg h]
    simp

theorem nodup_names_addNode (g : List Node) (n : Node)
    (h : (g.map Node.name).Nodup) : ((addNode g n).map Node.name).Nodup := by
  rw [names_addNode]
  by_cases hm : n.name ∈ g.map Node.name
  · rwa [if_pos hm]
  · rw [if_neg hm]
    refine List.Nodup.append h (List.nodup_singleton _) ?_
    intro a ha hb
    rw [List.mem_singleton] at hb
    subst hb
    exact hm ha

theorem mem_names_addNode (g : List Node) (n : Node) (x : String) :
    x ∈ (addNode g n).map Node.name ↔ x ∈ g.map Node.name ∨ x = n.name := by
  rw [names_addNode]
  by_cases hm : n.name ∈ g.map Node.name
  · rw [if_pos hm]
    constructor
    · exact fun h => Or.inl h
    · rintro (h | rfl)
      · exact h
      · exact hm
  · rw [if_neg hm]
    simp

theorem nodup_names_addStateNodes (finals : List StateData) (fS : String) :
    ∀ (states : List StateData) (g : List Node),
      (g.map Node.name).Nodup →
      ((addStateNodes finals fS g states).map Node.name).Nodup := by
  intro states
  induction states with
  | nil => intro g h; exact h
  | cons s rest ih =>
    intro g h
    exact ih (addNode g (stateNode finals fS s)) (nodup_names_addNode g _ h)

theorem mem_names_addStateNodes (finals : List StateData) (fS : String) :
    ∀ (states : List StateData) (g : List Node) (x : String),
      x ∈ (addStateNodes finals fS g states).map Node.name ↔
        x ∈ g.map Node.name ∨ ∃ s ∈ states, get_state_name s = x := by
  intro states
  induction states with
  | nil => intro g x; simp [addStateNodes]
  | cons s rest ih =>
    intro g x
    rw [addStateNodes, ih, mem_names_addNode]
    constructor
    · rintro ((h | h) | ⟨s', hs', h⟩)
      · exact Or.inl h
      · exact Or.inr ⟨s, List.mem_cons_self s rest, h.symm⟩
      · exact Or.inr ⟨s', List.mem_cons_of_mem s hs', h⟩
    · rintro (h | ⟨s', hs', h⟩)
      · exact Or.inl (Or.inl h)
      · rcases List.mem_cons.mp hs' with rfl | hs'
        · exact Or.inl (Or.inr h.symm)
        · exact Or.inr ⟨s', hs', h⟩

theorem length_eq_names_length (g : List Node) : g.length = (g.map Node.name).length := by
  simp

theorem addNode_eq_of_name (g : List Node) (n : Node) :
    ∀ n' ∈ addNode g n, n'.name = n.name → n' = n := by
  intro n' hn' hname
  rw [addNode] at hn'
  by_cases h : g.any (fun m => m.name == n.name) = true
  · rw [if_pos h] at hn'
    rcases List.mem_map.mp hn' with ⟨m, _, rfl⟩
    by_cases hm : m.name = n.name
    · simp [hm]
    · rw [if_neg (by simpa using hm)] at hname ⊢
      exact absurd hname hm
  · rw [if_neg h] at hn'
    rcases List.mem_append.mp hn' with hn' | hn'
    · exact absurd ((any_name_eq g n.name).mpr
        (hname ▸ List.mem_map_of_mem Node.name hn')) h
    · simpa using hn'

theorem addNode_named_mem (g : List Node) (n : Node) (x : String) (hx : x ≠ n.name) :
    ∀ n' ∈ addNode g n, n'.name = x → n' ∈ g := by
  intro n' hn' hname
  rw [addNode] at hn'
  by_cases h : g.any (fun m => m.name == n.name) = true
  · rw [if_pos h] at hn'
    rcases List.mem_map.mp hn' with ⟨m, hm, rfl⟩
    by_cases hmn : m.name = n.name
    · rw [if_pos (by simpa using hmn)] at hname
      exact absurd hname.symm hx
    · rwa [if_neg (by simpa using hmn)]
  · rw [if_neg h] at hn'
    rcases List.mem_append.mp hn' with hn' | hn'
    · exact hn'
    · have hnn : n' = n := by simpa using hn'
      exact absurd (hnn ▸ hname).symm hx

theorem addStateNodes_shape_inv (finals : List StateData) (fS : String) :
    ∀ (states : List StateData) (g : List Node) (x : String) (σ : Option String),
      (∀ n ∈ g, n.name = x → n.shape = σ) →
      (∀ s ∈ states, get_state_name s = x →
        some (if finals.contains s then "doublecircle" else "circle") = σ) →
      ∀ n ∈ addStateNodes finals fS g states, n.name = x → n.shape = σ := by
  intro states
  induction states with
  | nil => intro g x σ hg _ n hn hname; exact hg n hn hname
  | cons s rest ih =>
    intro g x σ hg hs n hn hname
    refine ih (addNode g (stateNode finals fS s)) x σ ?_
      (fun s' hs' h => hs s' (List.mem_cons_of_mem s hs') h) n hn hname
    intro n' hn' hname'
    by_cases hsx : get_state_name s = x
    · have : n' = stateNode finals fS s :=
        addNode_eq_of_name g _ n' hn' (by rw [hname', stateNode, hsx])
      rw [this, stateNode]
      exact hs s (List.mem_cons_self s rest) hsx
    · exact hg n' (addNode_named_mem g _ x (by
        intro hc
        exact hsx (by rw [stateNode] at hc; exact hc.symm)) n' hn' hname') hname'

theorem addStateNodes_shape_mem (finals : List StateData) (fS : String) :
    ∀ (states : List StateData) (g : List Node) (s : StateData),
      s ∈ states →
      (∀ s' ∈ states, get_state_name s' = get_state_name s →
        (if finals.contains s' then "doublecircle" else "circle") =
          (if finals.contains s then "doublecircle" else "circle")) →
      ∀ n ∈ addStateNodes finals fS g states, n.name = get_state_name s →
        n.shape = some (if finals.contains s then "doublecircle" else "circle") := by
  intro states
  induction states with
  | nil => intro g s hs; exact absurd hs (List.not_mem_nil s)
  | cons s₀ rest ih =>
    intro g s hs hcompat n hn hname
    by_cases hmem : s ∈ rest
    · exact ih (addNode g (stateNode finals fS s₀)) s hmem
        (fun s' hs' h => hcompat s' (List.mem_cons_of_mem s₀ hs') h) n hn hname
    · have hs0 : s = s₀ := by
        rcases List.mem_cons.mp hs with h | h
        · exact h
        · exact absurd h hmem
      subst hs0
      rw [addStateNodes] at hn
      refine addStateNodes_shape_inv finals fS rest _ (get_state_name s)
        (some (if finals.contains s then "doublecircle" else "circle")) ?_ ?_ n hn hname
      · intro n' hn' hname'
        have : n' = stateNode finals fS s :=
          addNode_eq_of_name g _ n' hn' (by rw [hname', stateNode])
        rw [this, stateNode]
      · intro s' hs' h
        exact congrArg some (hcompat s' (List.mem_cons_of_mem s hs') h)

/-- C2 (amended): when the formatted names of the (duplicate-free) states are
pairwise distinct and the uuid entry-node name is fresh — which the random
uuid guarantees — the produced node set is exactly the formatted state names
plus the one entry node (the automaton has exactly one initial state), the
node count is the state count plus one, and a state's node is doublecircle
iff the state is accepting, circle otherwise. -/
theorem c2_nodes_amended (nullName : String) (initialState : StateData)
    (states finals : List StateData) (fS : String)
    (hfresh : ∀ s ∈ states, get_state_name s ≠ nullName)
    (hinj : ∀ s ∈ states, ∀ s' ∈ states, get_state_name s = get_state_name s' → s = s')
    (hnodup : states.Nodup)
    (hinit : initialState ∈ states) :
    (buildNodes nullName initialState states finals fS).length = states.length + 1 ∧
    (∀ x, x ∈ (buildNodes nullName initialState states finals fS).map Node.name ↔
      x = nullName ∨ ∃ s ∈ states, get_state_name s = x) ∧
    (∀ s ∈ states, ∀ n ∈ buildNodes nullName initialState states finals fS,
      n.name = get_state_name s →
        (s ∈ finals → n.shape = some "doublecircle") ∧
        (s ∉ finals → n.shape = some "circle")) ∧
    (∀ s ∈ states, ∃ n ∈ buildNodes nullName initialState states finals fS,
      n.name = get_state_name s) := by
  have hg1names : (ensureNode (ensureNode
      ([⟨nullName, some "point", some fS⟩] : List Node) nullName)
      (get_state_name initialState)).map Node.name = [nullName, get_state_name initialState] := by
    rw [names_ensureNode, names_ensureNode]
    have h1 : nullName ∈ ([⟨nullName, some "point", some fS⟩] : List Node).map Node.name := by
      simp
    rw [if_pos h1]
    have h2 : get_state_name initialState ∉
        ([⟨nullName, some "point", some fS⟩] : List Node).map Node.name := by
      simp [(hfresh initialState hinit)]
    rw [if_neg h2]
    simp
  have hmem : ∀ x, x ∈ (buildNodes nullName initialState states finals fS).map Node.name ↔
      x = nullName ∨ ∃ s ∈ states, get_state_name s = x := by
    intro x
    rw [buildNodes, mem_names_addStateNodes, hg1names]
    constructor
    · rintro (h | h)
      · rcases List.mem_pair.mp h with rfl | rfl
        · exact Or.inl rfl
        · exact Or.inr ⟨initialState, hinit, rfl⟩
      · exact Or.inr h
    · rintro (rfl | h)
      · exact Or.inl (List.mem_cons_self _ _)
      · exact Or.inr h
  refine ⟨?_, hmem, ?_, ?_⟩
  · -- node count
    have hnodupnames : ((buildNodes nullName initialState states finals fS).map Node.name).Nodup := by
      rw [buildNodes]
      apply nodup_names_addStateNodes
      rw [hg1names]
      simp [Ne.symm (hfresh initialState hinit)]
    have hmapnodup : (states.map get_state_name).Nodup := hnodup.map_on hinj
    have hfinset : ((buildNodes nullName initialState states finals fS).map Node.name).toFinset =
        insert nullName (states.map get_state_name).toFinset := by
      ext x
      rw [List.mem_toFinset, hmem x, Finset.mem_insert, List.mem_toFinset]
      simp [List.mem_map]
    have hcount := List.toFinset_card_of_nodup hnodupnames
    rw [hfinset, Finset.card_insert_of_not_mem (by
      rw [List.mem_toFinset, List.mem_map]
      rintro ⟨s, hs, hsn⟩
      exact hfresh s hs hsn)] at hcount
    rw [List.toFinset_card_of_nodup hmapnodup, List.length_map] at hcount
    rw [length_eq_names_length, hcount]
  · -- shapes
    intro s hs n hn hname
    have hshape : n.shape = some (if finals.contains s then "doublecircle" else "circle") := by
      rw [buildNodes] at hn
      refine addStateNodes_shape_mem finals fS states _ s hs ?_ n hn hname
      intro s' hs' h
      rw [hinj s' hs' s hs h]
    constructor
    · intro hfin
      rw [hshape, if_pos (by simpa [List.contains, List.elem_iff] using hfin)]
    · intro hfin
      rw [hshape, if_neg (by simpa [List.contains, List.elem_iff] using hfin)]
  · intro s hs
    have : get_state_name s ∈ (buildNodes nullName initialState states finals fS).map Node.name :=
      (hmem _).mpr (Or.inr ⟨s, hs, rfl⟩)
    rcases List.mem_map.mp this with ⟨n, hn, hname⟩
    exact ⟨n, hn, hname⟩

/-- Counterexample to C2 as stated: the states `""` and `"λ"` both format to
the node name `"λ"`, so the graph holds 2 nodes, not 2 states + 1 initial
state = 3 — the claimed node count fails. -/
theorem c2_counterexample :
    (buildNodes "null0" (StateData.str "") [StateData.str "", StateData.str "λ"]
      [] "14.0").length ≠ [StateData.str "", StateData.str "λ"].length + 1 := by
  decide

/-- Witness for the amended C2 on a concrete two-state automaton with
injectively-formatted names: 2 states yield 3 nodes. -/
theorem c2_nodes_amended_witness :
    (buildNodes "null0" (StateData.str "q0") [StateData.str "q0", StateData.str "q1"]
      [StateData.str "q1"] "14.0").length =
      [StateData.str "q0", StateData.str "q1"].length + 1 :=
  (c2_nodes_amended "null0" (StateData.str "q0")
    [StateData.str "q0", StateData.str "q1"] [StateData.str "q1"] "14.0"
    (by decide) (by decide) (by decide) (by decide)).1

/-- Key of the aggregation dict `edge_labels` (fa.py lines 183-186): the pair
of formatted node names of a transition. -/
def transKey (t : Transition) : String × String :=
  (get_state_name t.1, get_state_name t.2.1)

/-- Python `defaultdict(list)` update `edge_labels[key].append(label)`: append
`v` to the list at key `k`, creating the key at the end on first use (dicts
preserve key insertion order). -/
def upsertLabel : List ((String × String) × List String) → (String × String) → String →
    List ((String × String) × List String)
  | [], k, v => [(k, [v])]
  | (k', vs) :: rest, k, v =>
    if k' = k then (k', vs ++ [v]) :: rest else (k', vs) :: upsertLabel rest k v

/-- Label list stored at key `p` (empty when the key is absent). -/
def labelsFor (p : String × String) :
    List ((String × String) × List String) → List String
  | [] => []
  | (k, vs) :: rest => if k = p then vs else labelsFor p rest

/-- Loop of fa.py lines 179-186: transitions whose (source, target, symbol)
triple is marked drawn by the highlighted path are skipped; every other
transition contributes its formatted symbol under its formatted-node-pair
key. -/
def edgeLabelsFrom (drawn : List Transition) :
    List ((String × String) × List String) → List Transition →
    List ((String × String) × List String)
  | acc, [] => acc
  | acc, t :: ts =>
    if drawn.contains t then edgeLabelsFrom drawn acc ts
    else edgeLabelsFrom drawn (upsertLabel acc (transKey t) (get_edge_name t.2.2)) ts

/-- The `edge_labels` dict built by fa.py lines 178-186. -/
def edgeLabels (ts drawn : List Transition) : List ((String × String) × List String) :=
  edgeLabelsFrom drawn [] ts

/-- Aggregated edges of fa.py lines 188-195: one edge per key, labelled with
the comma-join of the lexicographically sorted symbol labels. -/
def aggEdges (ts drawn : List Transition) (fS aS : String) : List DiagEdge :=
  (edgeLabels ts drawn).map (fun kv =>
    { src := kv.1.1, dst := kv.1.2,
      label := some (String.intercalate ","
        (List.insertionSort (fun a b : String => a ≤ b) kv.2)),
      color := none, penwidth := none, arrowsize := aS, fontsize := some fS })

theorem labelsFor_upsert :
    ∀ (acc : List ((String × String) × List String)) (k : String × String)
      (v : String) (p : String × String),
      labelsFor p (upsertLabel acc k v) =
        labelsFor p acc ++ (if k = p then [v] else []) := by
  intro acc
  induction acc with
  | nil =>
    intro k v p
    simp only [upsertLabel, labelsFor]
    by_cases h : k = p
    · simp [h]
    · simp [h]
  | cons hd tl ih =>
    intro k v p
    obtain ⟨k', vs⟩ := hd
    by_cases h1 : k' = k
    · subst h1
      simp only [upsertLabel, if_pos rfl, labelsFor]
      by_cases h2 : k' = p
      · simp [h2]
      · simp [h2]
    · simp only [upsertLabel, if_neg h1, labelsFor]
      by_cases h2 : k' = p
      · have h3 : ¬(k = p) := fun hc => h1 (h2.trans hc.symm)
        simp [h2, h3]
      · simp [h2, ih k v p]

theorem keys_upsert (acc : List ((String × String) × List String))
    (k : String × String) (v : String) :
    (upsertLabel acc k v).map Prod.fst =
      if k ∈ acc.map Prod.fst then acc.map Prod.fst
      else acc.map Prod.fst ++ [k] := by
  induction acc with
  | nil => simp [upsertLabel]
  | cons hd tl ih =>
    obtain ⟨k', vs⟩ := hd
    by_cases h1 : k' = k
    · subst h1
      simp [upsertLabel]
    · rw [upsertLabel, if_neg h1]
      by_cases h2 : k ∈ tl.map Prod.fst
      · simp only [List.map_cons, ih, if_pos h2]
        rw [if_pos (List.mem_cons_of_mem k' h2)]
      · simp only [List.map_cons, ih, if_neg h2]
        rw [if_neg (by
          intro hc
          rcases List.mem_cons.mp hc with hc | hc
          · exact h1 hc.symm
          · exact h2 hc)]
        simp

theorem mem_keys_upsert (acc : List ((String × String) × List String))
    (k : String × String) (v : String) (p : String × String) :
    p ∈ (upsertLabel acc k v).map Prod.fst ↔ p ∈ acc.map Prod.fst ∨ p = k := by
  rw [keys_upsert]
  by_cases h : k ∈ acc.map Prod.fst
  · rw [if_pos h]
    constructor
    · exact fun hh => Or.inl hh
    · rintro (hh | rfl)
      · exact hh
      · exact h
  · rw [if_neg h]
    simp

theorem nodup_keys_upsert (acc : List ((String × String) × List String))
    (k : String × String) (v : String)
    (h : (acc.map Prod.fst).Nodup) : ((upsertLabel acc k v).map Prod.fst).Nodup := by
  rw [keys_upsert]
  by_cases hm : k ∈ acc.map Prod.fst
  · rwa [if_pos hm]
  · rw [if_neg hm]
    refine List.Nodup.append h (List.nodup_singleton _) ?_
    intro a ha hb
    rw [List.mem_singleton] at hb
    subst hb
    exact hm ha

theorem labelsFor_eq_of_mem :
    ∀ (acc : List ((String × String) × List String)) (p : String × String)
      (vs : List String),
      (acc.map Prod.fst).Nodup → (p, vs) ∈ acc → labelsFor p acc = vs := by
  intro acc
  induction acc with
  | nil => intro p vs _ h; exact absurd h (List.not_mem_nil _)
  | cons hd tl ih =>
    intro p vs hnodup hmem
    obtain ⟨k', vs'⟩ := hd
    rcases List.mem_cons.mp hmem with h | h
    · injection h with ha hb
      rw [labelsFor, if_pos ha.symm]
      exact hb.symm
    · have hk : k' ≠ p := by
        intro hc
        have hmemtl : p ∈ tl.map Prod.fst := List.mem_map_of_mem Prod.fst h
        exact (List.nodup_cons.mp (by simpa using hnodup)).1 (hc.symm ▸ hmemtl)
      rw [labelsFor, if_neg hk]
      exact ih p vs (List.nodup_cons.mp (by simpa using hnodup)).2 h

theorem contains_eq_true_iff (l : List Transition) (t : Transition) :
    l.contains t = true ↔ t ∈ l := by
  simp [List.contains, List.elem_iff]

theorem labelsFor_edgeLabelsFrom (drawn : List Transition) :
    ∀ (ts : List Transition) (acc : List ((String × String) × List String))
      (p : String × String),
      labelsFor p (edgeLabelsFrom drawn acc ts) =
        labelsFor p acc ++
          ((ts.filter (fun t => !(drawn.contains t) && decide (transKey t = p))).map
            (fun t => get_edge_name t.2.2)) := by
  intro ts
  induction ts with
  | nil => intro acc p; simp [edgeLabelsFrom]
  | cons t rest ih =>
    intro acc p
    rw [edgeLabelsFrom]
    by_cases hd : drawn.contains t = true
    · have hcond : ¬((!(drawn.contains t) && decide (transKey t = p)) = true) := by
        rw [hd]; simp
      rw [if_pos hd, ih, @List.filter_cons_of_neg Transition
        (fun t => !(drawn.contains t) && decide (transKey t = p)) t rest hcond]
    · have hdf : drawn.contains t = false := by simpa using hd
      rw [if_neg hd, ih, labelsFor_upsert]
      by_cases hk : transKey t = p
      · have hcond : (!(drawn.contains t) && decide (transKey t = p)) = true := by
          rw [hdf, decide_eq_true hk]; rfl
        rw [@List.filter_cons_of_pos Transition
          (fun t => !(drawn.contains t) && decide (transKey t = p)) t rest hcond, if_pos hk]
        simp [List.append_assoc]
      · have hcond : ¬((!(drawn.contains t) && decide (transKey t = p)) = true) := by
          rw [hdf, decide_eq_false hk]; simp
        rw [@List.filter_cons_of_neg Transition
          (fun t => !(drawn.contains t) && decide (transKey t = p)) t rest hcond, if_neg hk]
        simp

theorem mem_keys_edgeLabelsFrom (drawn : List Transition) :
    ∀ (ts : List Transition) (acc : List ((String × String) × List String))
      (p : String × String),
      p ∈ (edgeLabelsFrom drawn acc ts).map Prod.fst ↔
        p ∈ acc.map Prod.fst ∨
          ∃ t ∈ ts, drawn.contains t = false ∧ transKey t = p := by
  intro ts
  induction ts with
  | nil => intro acc p; simp [edgeLabelsFrom]
  | cons t rest ih =>
    intro acc p
    by_cases hd : drawn.contains t = true
    · rw [edgeLabelsFrom, if_pos hd, ih]
      constructor
      · rintro (h | h)
        · exact Or.inl h
        · rcases h with ⟨t', ht', h1, h2⟩
          exact Or.inr ⟨t', List.mem_cons_of_mem t ht', h1, h2⟩
      · rintro (h | ⟨t', ht', h1, h2⟩)
        · exact Or.inl h
        · rcases List.mem_cons.mp ht' with rfl | ht'
          · rw [hd] at h1; exact absurd h1 (by simp)
          · exact Or.inr ⟨t', ht', h1, h2⟩
    · have hdf : drawn.contains t = false := by simpa using hd
      rw [edgeLabelsFrom, if_neg hd, ih, mem_keys_upsert]
      constructor
      · rintro ((h | h) | h)
        · exact Or.inl h
        · exact Or.inr ⟨t, List.mem_cons_self t rest, hdf, h.symm⟩
        · rcases h with ⟨t', ht', h1, h2⟩
          exact Or.inr ⟨t', List.mem_cons_of_mem t ht', h1, h2⟩
      · rintro (h | ⟨t', ht', h1, h2⟩)
        · exact Or.inl (Or.inl h)
        · rcases List.mem_cons.mp ht' with rfl | ht'
          · exact Or.inl (Or.inr h2.symm)
          · exact Or.inr ⟨t', ht', h1, h2⟩

theorem nodup_keys_edgeLabelsFrom (drawn : List Transition) :
    ∀ (ts : List Transition) (acc : List ((String × String) × List String)),
      (acc.map Prod.fst).Nodup →
      ((edgeLabelsFrom drawn acc ts).map Prod.fst).Nodup := by
  intro ts
  induction ts with
  | nil => intro acc h; exact h
  | cons t rest ih =>
    intro acc h
    by_cases hd : drawn.contains t = true
    · rw [edgeLabelsFrom, if_pos hd]
      exact ih acc h
    · rw [edgeLabelsFrom, if_neg hd]
      exact ih _ (nodup_keys_upsert acc _ _ h)

theorem edgeLabelsFrom_filter (path : List Transition) :
    ∀ (ts : List Transition) (acc : List ((String × String) × List String)),
      edgeLabelsFrom path acc ts =
        edgeLabelsFrom [] acc (ts.filter (fun t => !(path.contains t))) := by
  intro ts
  induction ts with
  | nil => intro acc; rfl
  | cons t rest ih =>
    intro acc
    rw [edgeLabelsFrom]
    by_cases hd : path.contains t = true
    · have hcond : ¬((!(path.contains t)) = true) := by rw [hd]; simp
      rw [if_pos hd, ih, @List.filter_cons_of_neg Transition
        (fun t => !(path.contains t)) t rest hcond]
    · have hdf : path.contains t = false := by simpa using hd
      have hcond : (!(path.contains t)) = true := by rw [hdf]; rfl
      rw [if_neg hd, ih, @List.filter_cons_of_pos Transition
        (fun t => !(path.contains t)) t rest hcond]
      rfl

theorem edgeLabelsFrom_congr (path drawn' : List Transition)
    (h : ∀ t : Transition, t ∈ path ↔ t ∈ drawn') :
    ∀ (ts : List Transition) (acc : List ((String × String) × List String)),
      edgeLabelsFrom path acc ts = edgeLabelsFrom drawn' acc ts := by
  intro ts
  induction ts with
  | nil => intro acc; rfl
  | cons t rest ih =>
    intro acc
    have hc : path.contains t = drawn'.contains t := by
      by_cases hb : path.contains t = true
      · rw [hb, (contains_eq_true_iff drawn' t).mpr
          ((h t).mp ((contains_eq_true_iff path t).mp hb))]
      · have hb' : ¬(drawn'.contains t = true) := fun hc2 =>
          hb ((contains_eq_true_iff path t).mpr
            ((h t).mpr ((contains_eq_true_iff drawn' t).mp hc2)))
        rw [Bool.not_eq_true] at hb hb'
        rw [hb, hb']
    simp only [edgeLabelsFrom, hc]
    by_cases hb : drawn'.contains t = true
    · simp [hb, ih]
    · have hbf : drawn'.contains t = false := by simpa using hb
      simp [hbf, ih]

/-- C3: a transition triple of the highlighted path is excluded from the
aggregated edges (aggregation over `ts` with the path marked drawn equals
aggregation over `ts` with all path triples filtered out); only membership in
the drawn set matters, so the first occurrence of a repeated triple already
suppresses aggregation and repetitions change nothing; and every occurrence
of the path — including revisits of the same triple — produces its own
highlighted edge, built from its own 1-based step index. -/
theorem c3_no_duplicate_edges (ts path : List Transition) (accepted : Bool) (fS aS : String) :
    edgeLabels ts path = edgeLabels (ts.filter (fun t => !(path.contains t))) [] ∧
    (∀ drawn' : List Transition, (∀ t : Transition, t ∈ path ↔ t ∈ drawn') →
      edgeLabels ts path = edgeLabels ts drawn') ∧
    (pathEdges path accepted fS aS).length = path.length ∧
    (∀ j : ℕ, (pathEdges path accepted fS aS)[j]? =
      (path[j]?).map (fun t => pathEdge accepted path.length (1 + j) t fS aS)) := by
  refine ⟨?_, ?_, ?_, ?_⟩
  · rw [edgeLabels, edgeLabels, edgeLabelsFrom_filter]
  · intro drawn' h
    rw [edgeLabels, edgeLabels, edgeLabelsFrom_congr path drawn' h]
  · rw [pathEdges, pathEdgesFrom_length]
  · intro j
    rw [pathEdges, pathEdgesFrom_getElem?]

/-- Witness for C3 on a path revisiting the same triple twice: dropping the
repetition from the drawn set leaves the aggregation unchanged, and the
two-step path still renders two highlighted edges. -/
theorem c3_no_duplicate_edges_witness :
    edgeLabels
        [(StateData.str "q0", StateData.str "q1", "a"),
          (StateData.str "q1", StateData.str "q0", "b")]
        [(StateData.str "q0", StateData.str "q1", "a"),
          (StateData.str "q0", StateData.str "q1", "a")] =
      edgeLabels
        [(StateData.str "q0", StateData.str "q1", "a"),
          (StateData.str "q1", StateData.str "q0", "b")]
        [(StateData.str "q0", StateData.str "q1", "a")] ∧
    (pathEdges
        [(StateData.str "q0", StateData.str "q1", "a"),
          (StateData.str "q0", StateData.str "q1", "a")] true "14.0" "0.85").length =
      [(StateData.str "q0", StateData.str "q1", "a"),
        (StateData.str "q0", StateData.str "q1", "a")].length := by
  have h := c3_no_duplicate_edges
    [(StateData.str "q0", StateData.str "q1", "a"),
      (StateData.str "q1", StateData.str "q0", "b")]
    [(StateData.str "q0", StateData.str "q1", "a"),
      (StateData.str "q0", StateData.str "q1", "a")] true "14.0" "0.85"
  exact ⟨h.2.1 [(StateData.str "q0", StateData.str "q1", "a")] (by intro t; simp),
    h.2.2.1⟩

theorem aggEdges_label (ts drawn : List Transition) (fS aS : String) (p : String × String) :
    ∀ e ∈ aggEdges ts drawn fS aS, (e.src, e.dst) = p →
      e.label = some (String.intercalate ","
        (List.insertionSort (fun a b : String => a ≤ b)
          ((ts.filter (fun t => !(drawn.contains t) && decide (transKey t = p))).map
            (fun t => get_edge_name t.2.2)))) := by
  intro e he hp
  rcases List.mem_map.mp he with ⟨kv, hkv, rfl⟩
  have hkey : kv.1 = p := hp
  have hnodup : ((edgeLabels ts drawn).map Prod.fst).Nodup :=
    nodup_keys_edgeLabelsFrom drawn ts [] (by simp)
  have hkvmem : (p, kv.2) ∈ edgeLabels ts drawn := by
    rw [← hkey]
    exact hkv
  have hlabels : labelsFor p (edgeLabels ts drawn) = kv.2 :=
    labelsFor_eq_of_mem _ p kv.2 hnodup hkvmem
  have hcollect := labelsFor_edgeLabelsFrom drawn ts [] p
  rw [edgeLabels] at hlabels
  rw [hcollect] at hlabels
  simp only [labelsFor, List.nil_append] at hlabels
  show some (String.intercalate ","
    (List.insertionSort (fun a b : String => a ≤ b) kv.2)) = _
  rw [← hlabels]

/-- C4: the aggregator emits exactly one edge per (source node, target node)
pair — the emitted pairs are duplicate-free and a pair is emitted iff it has
at least one non-drawn transition; the emitted label is the comma-join of the
lexicographically sorted formatted symbols of that pair's non-drawn
transitions; and aggregation is deterministic: any reordering of the
transition sequence yields the identical label for each pair. -/
theorem c4_aggregation (ts ts' drawn : List Transition) (fS aS : String)
    (hperm : ts.Perm ts') (p : String × String) :
    ((aggEdges ts drawn fS aS).map (fun e => (e.src, e.dst))).Nodup ∧
    ((∃ e ∈ aggEdges ts drawn fS aS, (e.src, e.dst) = p) ↔
      ∃ t ∈ ts, drawn.contains t = false ∧ transKey t = p) ∧
    (∀ e ∈ aggEdges ts drawn fS aS, (e.src, e.dst) = p →
      e.label = some (String.intercalate ","
        (List.insertionSort (fun a b : String => a ≤ b)
          ((ts.filter (fun t => !(drawn.contains t) && decide (transKey t = p))).map
            (fun t => get_edge_name t.2.2))))) ∧
    (∀ e ∈ aggEdges ts drawn fS aS, ∀ e' ∈ aggEdges ts' drawn fS aS,
      (e.src, e.dst) = p → (e'.src, e'.dst) = p → e.label = e'.label) := by
  have hnodup : ((edgeLabels ts drawn).map Prod.fst).Nodup :=
    nodup_keys_edgeLabelsFrom drawn ts [] (by simp)
  refine ⟨?_, ?_, aggEdges_label ts drawn fS aS p, ?_⟩
  · have hmaps : (aggEdges ts drawn fS aS).map (fun e => (e.src, e.dst)) =
        (edgeLabels ts drawn).map Prod.fst := by
      rw [aggEdges, List.map_map]
      rfl
    rw [hmaps]
    exact hnodup
  · constructor
    · rintro ⟨e, he, hp⟩
      rcases List.mem_map.mp he with ⟨kv, hkv, rfl⟩
      have hkey : kv.1 = p := hp
      have : p ∈ (edgeLabels ts drawn).map Prod.fst :=
        hkey ▸ List.mem_map_of_mem Prod.fst hkv
      rcases (mem_keys_edgeLabelsFrom drawn ts [] p).mp this with h | h
      · exact absurd h (by simp)
      · exact h
    · intro h
      have : p ∈ (edgeLabels ts drawn).map Prod.fst :=
        (mem_keys_edgeLabelsFrom drawn ts [] p).mpr (Or.inr h)
      rcases List.mem_map.mp this with ⟨kv, hkv, hkey⟩
      refine ⟨_, List.mem_map_of_mem _ hkv, ?_⟩
      exact hkey
  · intro e he e' he' hp hp'
    rw [aggEdges_label ts drawn fS aS p e he hp,
      aggEdges_label ts' drawn fS aS p e' he' hp']
    have hpermlab :
        ((ts.filter (fun t => !(drawn.contains t) && decide (transKey t = p))).map
          (fun t => get_edge_name t.2.2)).Perm
        ((ts'.filter (fun t => !(drawn.contains t) && decide (transKey t = p))).map
          (fun t => get_edge_name t.2.2)) :=
      (hperm.filter _).map _
    have hsorted1 := List.sorted_insertionSort (fun a b : String => a ≤ b)
      ((ts.filter (fun t => !(drawn.contains t) && decide (transKey t = p))).map
        (fun t => get_edge_name t.2.2))
    have hsorted2 := List.sorted_insertionSort (fun a b : String => a ≤ b)
      ((ts'.filter (fun t => !(drawn.contains t) && decide (transKey t = p))).map
        (fun t => get_edge_name t.2.2))
    have heq := List.eq_of_perm_of_sorted
      (((List.perm_insertionSort _ _).trans hpermlab).trans
        (List.perm_insertionSort _ _).symm) hsorted1 hsorted2
    rw [heq]

/-- Witness for C4: a two-transition automaton given in either order yields
duplicate-free aggregated pairs. -/
theorem c4_aggregation_witness :
    ((aggEdges
        [(StateData.str "q0", StateData.str "q1", "a"),
          (StateData.str "q0", StateData.str "q1", "b")]
        [] "14.0" "0.85").map (fun e => (e.src, e.dst))).Nodup :=
  (c4_aggregation
    [(StateData.str "q0", StateData.str "q1", "a"),
      (StateData.str "q0", StateData.str "q1", "b")]
    [(StateData.str "q0", StateData.str "q1", "b"),
      (StateData.str "q0", StateData.str "q1", "a")]
    [] "14.0" "0.85" (by decide) ("q0", "q1")).1

/-- The entry edge of fa.py lines 136-141 (tooltip omitted). -/
def entryEdge (nullName : String) (initialState : StateData) (aS : String) : DiagEdge :=
  { src := nullName, dst := get_state_name initialState, label := none,
    color := none, penwidth := none, arrowsize := aS, fontsize := none }

/-- Full graph construction of `show_diagram` (fa.py lines 106-195):
`inputPath` is the result of `self._get_input_path(input_str)` (the trace
collaborator) when an input string is supplied, `none` otherwise;
`transitions` is `self.iter_transitions()` in iteration order. The drawn set
passed to the aggregator is exactly the traced path. -/
def show_diagram_graph (inputPath : Option (List Transition × Bool))
    (states finals : List StateData) (initialState : StateData)
    (transitions : List Transition) (nullName : String) (fS aS : String) :
    List Node × List DiagEdge :=
  let nodes := buildNodes nullName initialState states finals fS
  let highlighted := match inputPath with
    | none => []
    | some (p, accepted) => pathEdges p accepted fS aS
  let drawn := match inputPath with
    | none => []
    | some (p, _) => p
  (nodes, entryEdge nullName initialState aS ::
    (highlighted ++ aggEdges transitions drawn fS aS))

/-- External actions performed by the layout/export tail of `show_diagram`
(fa.py lines 197-222). `ensureParentDir` is the filesystem action the spec
claims happens before the write; it is part of the action vocabulary so that
its absence from the code's action trace can be stated. -/
inductive RenderAction where
  | layout (prog : String)
  | ensureParentDir (dir : String)
  | draw (path : String) (format : Option String)
  | openViewer
deriving DecidableEq, Repr

/-- Python `str.split` on a single separator character. -/
def splitOnChar (c : Char) : List Char → List (List Char)
  | [] => [[]]
  | x :: xs =>
    if x = c then [] :: splitOnChar c xs
    else
      match splitOnChar c xs with
      | [] => [[x]]
      | g :: gs => (x :: g) :: gs

/-- Mirrors `pathlib.PurePath.name` for the forward-slash paths relevant
here: the final path component. -/
def pathName (p : String) : List Char :=
  (splitOnChar '/' p.toList).getLastD []

/-- Mirrors `pathlib.PurePath.suffix`: the part of the final component from
its last dot on, provided that dot is neither its first nor its last
character; empty otherwise. -/
def pathSuffix (p : String) : List Char :=
  let name := pathName p
  match name.reverse.findIdx? (fun ch => ch == '.') with
  | none => []
  | some j =>
    let i := name.length - 1 - j
    if 0 < i ∧ i < name.length - 1 then name.drop i else []

/-- Mirrors fa.py lines 211-213: the export format is
`save_path_final.suffix.split(".")[1]` when the path has a suffix, `None`
otherwise. -/
def resolveFormat (p : String) : Option String :=
  let suffix := pathSuffix p
  if suffix.isEmpty then none
  else some (String.mk ((splitOnChar '.' suffix).getD 1 []))

/-- Mirrors the layout/export tail of `show_diagram` (fa.py lines 197-222) as
the sequence of external actions the code performs: the layout call with the
engine (defaulted to `dot`), then, when a destination path is given, the
`graph.draw` call with that path and the resolved format. The `view` and
`cleanup` parameters of `show_diagram` are accepted but never used (the
`view=view` and `cleanup=cleanup` arguments as well as the `mkdir` of the
destination's parent are commented out in the source). -/
def exportActions (engine : Option String) (path : Option String)
    ( view cleanup : Bool) : List RenderAction :=
  let eng := match engine with
    | none => "dot"
    | some e => e
  match path with
  | none => [RenderAction.layout eng]
  | some p => [RenderAction.layout eng, RenderAction.draw p (resolveFormat p)]

/-- C5 (refuting the claimed behaviour, as the code stands): the export tail
never creates the destination's parent directory — no `ensureParentDir`
action occurs in any action trace; concretely, for the destination
`missing/diagram.png` the code goes straight to the draw call. -/
theorem c5_no_parent_dir_creation (engine : Option String) (path : Option String)
    ( view cleanup : Bool) (d : String) :
    RenderAction.ensureParentDir d ∉ exportActions engine path view cleanup ∧
    exportActions none (some "missing/diagram.png") false true =
      [RenderAction.layout "dot",
        RenderAction.draw "missing/diagram.png" (some "png")] := by
  constructor
  · cases path with
    | none => cases engine <;> simp [exportActions]
    | some p => cases engine <;> simp [exportActions]
  · rfl

/-- Witness for C5 at the concrete failing destination. -/
theorem c5_no_parent_dir_creation_witness :
    RenderAction.ensureParentDir "missing" ∉
      exportActions none (some "missing/diagram.png") false true :=
  (c5_no_parent_dir_creation none (some "missing/diagram.png") false true "missing").1

/-- Counterexample to C6 as stated: with destination `out.xyz` the unknown
format `xyz` is not rejected by a validation error before the engine is
invoked for export — the action trace reaches the engine draw call carrying
the bad format value. -/
theorem c6_counterexample :
    exportActions none (some "out.xyz") false true =
      [RenderAction.layout "dot", RenderAction.draw "out.xyz" (some "xyz")] ∧
    RenderAction.draw "out.xyz" (some "xyz") ∈
      exportActions none (some "out.xyz") false true := by
  constructor
  · rfl
  · decide

/-- C6 (amended): the format resolved from the destination's extension is
passed through, unvalidated, to the engine draw call — whatever it is. -/
theorem c6_format_passthrough (engine : Option String) (p : String)
    ( view cleanup : Bool) :
    RenderAction.draw p (resolveFormat p) ∈ exportActions engine (some p) view cleanup := by
  cases engine <;> simp [exportActions]

/-- Witness for the amended C6 at a concrete destination. -/
theorem c6_format_passthrough_witness :
    RenderAction.draw "out.svg" (resolveFormat "out.svg") ∈
      exportActions none (some "out.svg") false true :=
  c6_format_passthrough none "out.svg" false true

/-- C7 (refuting the claimed behaviour, as the code stands): the `view` flag
(and `cleanup`) have no effect on the action trace, no viewer is ever opened,
and with `view=True` and no destination the code performs only the layout
call. -/
theorem c7_view_ignored (engine : Option String) (path : Option String)
    (v v' c c' : Bool) :
    exportActions engine path v c = exportActions engine path v' c' ∧
    RenderAction.openViewer ∉ exportActions engine path v c ∧
    exportActions none none true true = [RenderAction.layout "dot"] := by
  refine ⟨rfl, ?_, rfl⟩
  cases path with
  | none => cases engine <;> simp [exportActions]
  | some p => cases engine <;> simp [exportActions]

/-- Witness for C7 at concrete flag values. -/
theorem c7_view_ignored_witness :
    exportActions none none true true = exportActions none none false false :=
  (c7_view_ignored none none true false true false).1

end FA
